import Mathlib

/-!
Verification of the duplicate-grouping and summary utilities of the
Cellular-Automata repository (`src/my_utils.py`).

The Python code is shallowly embedded as follows:
* a frequency vector (`vec`) is a `List Int` (numeric values with exact,
  order-sensitive equality, matching `tuple(vec)` keys);
* the insertion-ordered Python `dict` used by `group_duplicates` is an
  association list `List (Vec × List Nat)` whose entries appear in
  first-insertion order, matching Python 3.7+ dict semantics;
* the process-wide pandas option registry touched by
  `pd.set_option("max_colwidth", 50)` is threaded explicitly as a
  `PandasOptions` record (the one option that the code touches is an
  explicit field; every other process-wide option is kept abstract in
  `other_options`);
* the `IndexError` that `all_results[idx]` can raise is an `Option.none`
  result.
-/

namespace CellularAutomata

/-- A frequency vector: an ordered sequence of numeric values. -/
abbrev Vec := List Int

/-- `state_to_binary_string(state)`: `"".join(map(str, state))` — concatenate
the textual representation of each element in order, with no separator. -/
def state_to_binary_string (state : List Int) : String :=
  String.join (state.map toString)

/-- One step of `groups.setdefault(key, []).append(rule_num)` on the
insertion-ordered dict: if `key` is already present, append `i` to its list
of rule indices (first matching entry); otherwise add a new entry
`(key, [i])` at the end. -/
def insertRule : List (Vec × List Nat) → Vec → Nat → List (Vec × List Nat)
  | [], key, i => [(key, [i])]
  | (k, is) :: rest, key, i =>
      if k = key then (k, is ++ [i]) :: rest
      else (k, is) :: insertRule rest key i

/-- The loop `for rule_num, vec in enumerate(freq_vectors, start=1)` of
`group_duplicates`: `n` is the rule number of the next vector. -/
def groupsLoop : List (Vec × List Nat) → Nat → List Vec → List (Vec × List Nat)
  | buckets, _, [] => buckets
  | buckets, n, v :: vs => groupsLoop (insertRule buckets v n) (n + 1) vs

/-- `group_duplicates(freq_vectors)`: bucket 1-based rule numbers by the
vector used as dict key, then keep only the buckets (`groups.values()`,
in insertion order) with more than one rule. -/
def group_duplicates (freq_vectors : List Vec) : List (List Nat) :=
  ((groupsLoop [] 1 freq_vectors).map Prod.snd).filter (fun g => 1 < g.length)

/-- The distinct vectors of the input, in the order each was first
encountered (the insertion order of the dict keys). -/
def keysFirstSeen (vecs : List Vec) : List Vec :=
  vecs.foldl (fun acc v => if v ∈ acc then acc else acc ++ [v]) []

/-- The 1-based positions at which `key` occurs in `vecs`, in increasing
order. -/
def positionsOf (vecs : List Vec) (key : Vec) : List Nat :=
  ((List.range vecs.length).filter (fun j => vecs.get? j = some key)).map (· + 1)

/-- Spec-level restatement of the grouping contract (§4.2 of the spec):
each input vector gets a 1-based rule index equal to its position; rule
indices are bucketed by exact order-sensitive equality of the vectors;
the buckets with at least 2 members are emitted in the order their key
was first encountered, singletons dropped. -/
def group_duplicates_spec (vecs : List Vec) : List (List Nat) :=
  ((keysFirstSeen vecs).map (positionsOf vecs)).filter (fun g => 2 ≤ g.length)

/-- The dict built by the bucketing loop, described extensionally: one
entry per distinct vector in first-seen order, carrying the 1-based
positions of that vector. -/
def bucketsOf (vecs : List Vec) : List (Vec × List Nat) :=
  (keysFirstSeen vecs).map (fun k => (k, positionsOf vecs k))

/-- The result of the external simulation for one initial state, exposing
the field `"frequency_vectors"` accessed by `create_summary_table`. -/
structure SimResult where
  frequency_vectors : List Vec
  deriving Repr, DecidableEq

/-- One row appended to `stats`:
`{"Initial State": ..., "Group Count": ..., "Duplicate Groups": ...}`. -/
structure SummaryRow where
  initial_state : String
  group_count : Nat
  duplicate_groups : List (List Nat)
  deriving Repr, DecidableEq

/-- The process-wide pandas option registry. The code touches exactly one
option (`"max_colwidth"`), kept as an explicit field; all remaining
options are abstracted as `other_options`. -/
structure PandasOptions where
  max_colwidth : Nat
  other_options : List (String × Nat)
  deriving Repr, DecidableEq

/-- The row built for initial state `init` with simulation result `res`. -/
def mkSummaryRow (init : List Int) (res : SimResult) : SummaryRow :=
  { initial_state := state_to_binary_string init
    group_count := (group_duplicates res.frequency_vectors).length
    duplicate_groups := group_duplicates res.frequency_vectors }

/-- The loop `for idx, init in enumerate(init_states)` of
`create_summary_table`: each iteration reads `all_results[idx]`, which
raises `IndexError` (modelled as `none`) when `idx` is out of range. -/
def buildStats : List (List Int) → List SimResult → Nat → Option (List SummaryRow)
  | [], _, _ => some []
  | init :: rest, all_results, idx =>
      match all_results.get? idx with
      | none => none
      | some res =>
          (buildStats rest all_results (idx + 1)).map
            (fun rows => mkSummaryRow init res :: rows)

/-- `create_summary_table(init_states, all_results)`: run the row-building
loop (propagating a possible `IndexError`), then execute
`pd.set_option("max_colwidth", 50)` on the process-wide option registry
and return the table (`pd.DataFrame(stats)` is modelled as the row list
itself). -/
def create_summary_table (init_states : List (List Int)) (all_results : List SimResult)
    (opts : PandasOptions) : Option (PandasOptions × List SummaryRow) :=
  match buildStats init_states all_results 0 with
  | none => none
  | some stats => some ({ opts with max_colwidth := 50 }, stats)

/-! ### Lemmas about the bucketing loop -/

theorem groupsLoop_append (vs : List Vec) (v : Vec) :
    ∀ (b : List (Vec × List Nat)) (n : Nat),
      groupsLoop b n (vs ++ [v]) = insertRule (groupsLoop b n vs) v (n + vs.length) := by
  induction vs with
  | nil => intro b n; simp [groupsLoop]
  | cons u vs ih =>
      intro b n
      show groupsLoop (insertRule b u n) (n + 1) (vs ++ [v]) = _
      rw [ih]
      show _ = insertRule (groupsLoop (insertRule b u n) (n + 1) vs) v (n + (vs.length + 1))
      congr 1
      omega

theorem mem_keysFirstSeen_aux (k : Vec) (vecs : List Vec) :
    ∀ acc : List Vec,
      (k ∈ vecs.foldl (fun acc v => if v ∈ acc then acc else acc ++ [v]) acc ↔
        k ∈ acc ∨ k ∈ vecs) := by
  induction vecs with
  | nil => intro acc; simp
  | cons v vs ih =>
      intro acc
      show k ∈ List.foldl _ (if v ∈ acc then acc else acc ++ [v]) vs ↔ _
      rw [ih]
      by_cases hv : v ∈ acc
      · simp only [if_pos hv, List.mem_cons]
        constructor
        · rintro (h | h) <;> tauto
        · rintro (h | rfl | h) <;> tauto
      · simp only [if_neg hv, List.mem_append, List.mem_singleton, List.mem_cons]
        tauto

theorem mem_keysFirstSeen (k : Vec) (vecs : List Vec) :
    k ∈ keysFirstSeen vecs ↔ k ∈ vecs := by
  have := mem_keysFirstSeen_aux k vecs []
  simpa [keysFirstSeen] using this

theorem nodup_keysFirstSeen (vecs : List Vec) : (keysFirstSeen vecs).Nodup := by
  have aux : ∀ acc : List Vec, acc.Nodup →
      (vecs.foldl (fun acc v => if v ∈ acc then acc else acc ++ [v]) acc).Nodup := by
    induction vecs with
    | nil => intro acc h; exact h
    | cons v vs ih =>
        intro acc h
        show (List.foldl _ (if v ∈ acc then acc else acc ++ [v]) vs).Nodup
        apply ih
        by_cases hv : v ∈ acc
        · simpa [if_pos hv] using h
        · rw [if_neg hv]
          simpa [List.nodup_append] using ⟨h, hv⟩
  exact aux [] List.nodup_nil

theorem keysFirstSeen_append (vecs : List Vec) (v : Vec) :
    keysFirstSeen (vecs ++ [v]) =
      if v ∈ keysFirstSeen vecs then keysFirstSeen vecs else keysFirstSeen vecs ++ [v] := by
  simp [keysFirstSeen, List.foldl_append]

theorem positionsOf_append (vecs : List Vec) (v : Vec) (k : Vec) :
    positionsOf (vecs ++ [v]) k =
      positionsOf vecs k ++ (if k = v then [vecs.length + 1] else []) := by
  unfold positionsOf
  rw [List.length_append, List.length_singleton, List.range_succ, List.filter_append]
  rw [List.filter_congr (q := fun j => vecs.get? j = some k) ?_]
  · rw [List.map_append]
    congr 1
    have hv : (vecs ++ [v]).get? vecs.length = some v := by
      rw [List.get?_append_right (Nat.le_refl _)]
      simp
    by_cases hk : k = v
    · subst hk
      simp [hv]
    · have : ((vecs ++ [v]).get? vecs.length = some k) = False := by
        simp only [hv, eq_iff_iff, iff_false]
        intro h
        exact hk (Option.some.inj h).symm
      simp [hv, if_neg hk, Ne.symm hk]
  · intro j hj
    rw [List.mem_range] at hj
    rw [List.get?_append hj]

theorem positionsOf_of_not_mem (vecs : List Vec) (v : Vec) (hv : v ∉ vecs) :
    positionsOf vecs v = [] := by
  unfold positionsOf
  rw [List.filter_eq_nil.2, List.map_nil]
  intro j hj
  simp only [decide_eq_true_eq]
  intro h
  exact hv (List.get?_mem h)

theorem insertRule_map_of_mem (P : Vec → List Nat) (v : Vec) (i : Nat) :
    ∀ ks : List Vec, ks.Nodup → v ∈ ks →
      insertRule (ks.map fun k => (k, P k)) v i =
        ks.map fun k => (k, P k ++ if k = v then [i] else []) := by
  intro ks
  induction ks with
  | nil => intro _ hv; exact absurd hv (List.not_mem_nil v)
  | cons k ks ih =>
      intro hnd hv
      rw [List.map_cons, List.map_cons, insertRule]
      by_cases hk : k = v
      · subst hk
        rw [if_pos rfl, if_pos rfl]
        congr 1
        apply List.map_congr_left
        intro x hx
        have hxk : x ≠ k := fun h => (List.nodup_cons.1 hnd).1 (h ▸ hx)
        rw [if_neg hxk, List.append_nil]
      · rw [if_neg hk, if_neg hk, List.append_nil]
        congr 1
        exact ih (List.nodup_cons.1 hnd).2
          ((List.mem_cons.1 hv).resolve_left (fun h => hk h.symm))

theorem insertRule_map_of_not_mem (P : Vec → List Nat) (v : Vec) (i : Nat) :
    ∀ ks : List Vec, v ∉ ks →
      insertRule (ks.map fun k => (k, P k)) v i =
        (ks.map fun k => (k, P k)) ++ [(v, [i])] := by
  intro ks
  induction ks with
  | nil => intro _; rfl
  | cons k ks ih =>
      intro hv
      rw [List.map_cons, insertRule,
        if_neg (fun h => hv (by rw [← h]; exact List.mem_cons_self k ks)),
        List.cons_append]
      congr 1
      exact ih (fun h => hv (List.mem_cons_of_mem k h))

theorem insertRule_bucketsOf (vecs : List Vec) (v : Vec) :
    insertRule (bucketsOf vecs) v (vecs.length + 1) = bucketsOf (vecs ++ [v]) := by
  unfold bucketsOf
  by_cases hv : v ∈ keysFirstSeen vecs
  · rw [insertRule_map_of_mem _ _ _ _ (nodup_keysFirstSeen vecs) hv,
      keysFirstSeen_append, if_pos hv]
    apply List.map_congr_left
    intro k _
    rw [positionsOf_append]
  · rw [insertRule_map_of_not_mem _ _ _ _ hv, keysFirstSeen_append, if_neg hv,
      List.map_append]
    congr 1
    · apply List.map_congr_left
      intro k hk
      have hkv : k ≠ v := fun h => hv (h ▸ hk)
      rw [positionsOf_append, if_neg hkv, List.append_nil]
    · rw [List.map_singleton, positionsOf_append, if_pos rfl,
        positionsOf_of_not_mem vecs v ((mem_keysFirstSeen v vecs).not.1 hv),
        List.nil_append]

theorem groupsLoop_eq_bucketsOf (vecs : List Vec) :
    groupsLoop [] 1 vecs = bucketsOf vecs := by
  induction vecs using List.reverseRecOn with
  | nil => rfl
  | append_singleton l v ih =>
      rw [groupsLoop_append, ih, Nat.add_comm 1 l.length, insertRule_bucketsOf]

/-- The loop-based implementation agrees with the extensional contract.
Shared helper for the claim theorems below. -/
theorem group_duplicates_eq_spec (vecs : List Vec) :
    group_duplicates vecs = group_duplicates_spec vecs := by
  unfold group_duplicates group_duplicates_spec
  rw [groupsLoop_eq_bucketsOf]
  unfold bucketsOf
  rw [List.map_map]
  have hmap : (Prod.snd ∘ fun k => (k, positionsOf vecs k)) = positionsOf vecs := rfl
  rw [hmap]
  apply List.filter_congr
  intro g _
  simp only [decide_eq_decide]
  omega

theorem mem_positionsOf (vecs : List Vec) (k : Vec) (i : Nat) :
    i ∈ positionsOf vecs k ↔ 1 ≤ i ∧ i ≤ vecs.length ∧ vecs.get? (i - 1) = some k := by
  unfold positionsOf
  simp only [List.mem_map, List.mem_filter, List.mem_range, decide_eq_true_eq]
  constructor
  · rintro ⟨j, ⟨hj, hjk⟩, rfl⟩
    exact ⟨by omega, by omega, by simpa using hjk⟩
  · rintro ⟨h1, h2, h3⟩
    exact ⟨i - 1, ⟨by omega, h3⟩, by omega⟩

theorem mem_group_duplicates (vecs : List Vec) (g : List Nat) :
    g ∈ group_duplicates vecs ↔
      ∃ k, k ∈ keysFirstSeen vecs ∧ g = positionsOf vecs k ∧ 2 ≤ g.length := by
  rw [group_duplicates_eq_spec]
  unfold group_duplicates_spec
  simp only [List.mem_filter, List.mem_map, decide_eq_true_eq]
  constructor
  · rintro ⟨⟨k, hk, rfl⟩, hlen⟩
    exact ⟨k, hk, rfl, hlen⟩
  · rintro ⟨k, hk, rfl, hlen⟩
    exact ⟨⟨k, hk, rfl⟩, hlen⟩

theorem positionsOf_sorted (vecs : List Vec) (k : Vec) :
    (positionsOf vecs k).Sorted (· < ·) := by
  unfold positionsOf
  exact List.Pairwise.map _ (fun a b h => by omega)
    (List.Pairwise.sublist (List.filter_sublist _) (List.sorted_lt_range vecs.length))

theorem two_le_length_of_mem_ne {l : List Nat} {a b : Nat} (hab : a ≠ b)
    (ha : a ∈ l) (hb : b ∈ l) : 2 ≤ l.length := by
  match l with
  | [] => exact absurd ha (List.not_mem_nil a)
  | [x] =>
      rw [List.mem_singleton] at ha hb
      exact absurd (ha.trans hb.symm) hab
  | x :: y :: t => simp only [List.length_cons]; omega

/-- C1: `group_duplicates` coincides with the spec-level contract of §4.2:
every vector gets a 1-based rule index equal to its position, indices are
bucketed by exact order-sensitive equality of the vector used as key, and
the output is exactly the buckets with at least 2 members, in the order
each bucket's key was first encountered, with singleton buckets dropped. -/
theorem group_duplicates_matches_contract (vecs : List Vec) :
    group_duplicates vecs = group_duplicates_spec vecs :=
  group_duplicates_eq_spec vecs

/-- C3: every rule index in the output lies in `[1, len]`, no index occurs
in two groups nor twice inside one group, and every group has at least two
members. -/
theorem group_duplicates_invariants (vecs : List Vec) :
    (∀ g ∈ group_duplicates vecs,
        (∀ i ∈ g, 1 ≤ i ∧ i ≤ vecs.length) ∧ 2 ≤ g.length ∧ g.Nodup) ∧
    (group_duplicates vecs).Pairwise (fun g₁ g₂ => ∀ i ∈ g₁, i ∉ g₂) := by
  constructor
  · intro g hg
    obtain ⟨k, hk, rfl, hlen⟩ := (mem_group_duplicates vecs g).1 hg
    refine ⟨?_, hlen, ?_⟩
    · intro i hi
      have := (mem_positionsOf vecs k i).1 hi
      exact ⟨this.1, this.2.1⟩
    · exact List.Pairwise.imp (fun h => Nat.ne_of_lt h) (positionsOf_sorted vecs k)
  · rw [group_duplicates_eq_spec]
    unfold group_duplicates_spec
    refine List.Pairwise.sublist (List.filter_sublist _) ?_
    refine List.Pairwise.map _ ?_ (nodup_keysFirstSeen vecs)
    intro k₁ k₂ hne i hi1 hi2
    have h1 := ((mem_positionsOf vecs k₁ i).1 hi1).2.2
    have h2 := ((mem_positionsOf vecs k₂ i).1 hi2).2.2
    exact hne (Option.some.inj (h1.symm.trans h2))

/-- C5: two distinct in-range rule indices land in a common group iff
their vectors have the same length and are exactly equal element-wise;
ragged collections are handled without error (differing lengths are
distinct keys), as the concrete ragged example shows. -/
theorem group_duplicates_same_group_iff (vecs : List Vec) (i j : Nat)
    (hi1 : 1 ≤ i) (hi2 : i ≤ vecs.length) (hj1 : 1 ≤ j) (hj2 : j ≤ vecs.length)
    (hij : i ≠ j) :
    ((∃ g ∈ group_duplicates vecs, i ∈ g ∧ j ∈ g) ↔
      (∃ u v, vecs.get? (i - 1) = some u ∧ vecs.get? (j - 1) = some v ∧
        u.length = v.length ∧ ∀ m, u.get? m = v.get? m)) ∧
    group_duplicates [[1], [1, 0], [1]] = [[1, 3]] := by
  refine ⟨⟨?_, ?_⟩, by decide⟩
  · rintro ⟨g, hg, hgi, hgj⟩
    obtain ⟨k, hk, rfl, hlen⟩ := (mem_group_duplicates vecs g).1 hg
    have h1 := ((mem_positionsOf vecs k i).1 hgi).2.2
    have h2 := ((mem_positionsOf vecs k j).1 hgj).2.2
    exact ⟨k, k, h1, h2, rfl, fun m => rfl⟩
  · rintro ⟨u, v, hu, hv, hlen, hptw⟩
    have huv : u = v := List.ext_get? hptw
    subst huv
    refine ⟨positionsOf vecs u,
      (mem_group_duplicates vecs _).2 ⟨u, (mem_keysFirstSeen u vecs).2 (List.get?_mem hu),
        rfl, ?_⟩,
      (mem_positionsOf vecs u i).2 ⟨hi1, hi2, hu⟩,
      (mem_positionsOf vecs u j).2 ⟨hj1, hj2, hv⟩⟩
    exact two_le_length_of_mem_ne hij
      ((mem_positionsOf vecs u i).2 ⟨hi1, hi2, hu⟩)
      ((mem_positionsOf vecs u j).2 ⟨hj1, hj2, hv⟩)

/-- Witness for C5 at `vecs = [[1,0],[1,0]]`, `i = 1`, `j = 2`. -/
theorem group_duplicates_same_group_iff_witness :
    ((∃ g ∈ group_duplicates [[1, 0], [1, 0]], 1 ∈ g ∧ 2 ∈ g) ↔
      (∃ u v, [[(1 : Int), 0], [1, 0]].get? 0 = some u ∧
        [[(1 : Int), 0], [1, 0]].get? 1 = some v ∧
        u.length = v.length ∧ ∀ m, u.get? m = v.get? m)) ∧
    group_duplicates [[1], [1, 0], [1]] = [[1, 3]] :=
  group_duplicates_same_group_iff [[1, 0], [1, 0]] 1 2
    (by decide) (by decide) (by decide) (by decide) (by decide)

/-- C9: `group_duplicates` is deterministic — equal inputs produce equal
group lists (same groups, same order, same indices in each group). -/
theorem group_duplicates_deterministic (v₁ v₂ : List Vec) (h : v₁ = v₂) :
    group_duplicates v₁ = group_duplicates v₂ :=
  congrArg group_duplicates h

/-- Witness for C9 at a concrete repeated input. -/
theorem group_duplicates_deterministic_witness :
    group_duplicates [[1, 0], [1, 0], [0, 1]] = group_duplicates [[1, 0], [1, 0], [0, 1]] :=
  group_duplicates_deterministic [[1, 0], [1, 0], [0, 1]] [[1, 0], [1, 0], [0, 1]] rfl

/-- C10: inside every emitted group the rule indices are strictly
increasing, and the first element of a group is the position of the
earliest occurrence of the group's vector in the input. -/
theorem group_duplicates_groups_sorted (vecs : List Vec) (g : List Nat)
    (hg : g ∈ group_duplicates vecs) :
    List.Sorted (· < ·) g ∧
    ∀ m, g.head? = some m → ∀ i ∈ g, ∀ j, vecs.get? j = vecs.get? (i - 1) → m ≤ j + 1 := by
  obtain ⟨k, hk, rfl, hlen⟩ := (mem_group_duplicates vecs g).1 hg
  refine ⟨positionsOf_sorted vecs k, ?_⟩
  intro m hm i hi j hj
  have hik := ((mem_positionsOf vecs k i).1 hi).2.2
  rw [hik] at hj
  have hjlen : j < vecs.length := by
    by_contra hge
    rw [List.get?_eq_none.2 (by omega)] at hj
    exact Option.noConfusion hj
  have hjmem : j + 1 ∈ positionsOf vecs k :=
    (mem_positionsOf vecs k (j + 1)).2 ⟨by omega, by omega, by simpa using hj⟩
  rcases hh : positionsOf vecs k with _ | ⟨m', rest⟩
  · rw [hh] at hm
    exact Option.noConfusion hm
  · rw [hh] at hm hjmem
    have hmm : m' = m := Option.some.inj hm
    subst hmm
    rcases List.mem_cons.1 hjmem with h | h
    · omega
    · have hs := positionsOf_sorted vecs k
      rw [hh] at hs
      have := List.rel_of_sorted_cons hs _ h
      omega

/-- Witness for C10 at `vecs = [[1,0],[0,1],[1,0]]`, `g = [1,3]`. -/
theorem group_duplicates_groups_sorted_witness :
    List.Sorted (· < ·) [1, 3] ∧
    ∀ m, ([1, 3] : List Nat).head? = some m → ∀ i ∈ ([1, 3] : List Nat), ∀ j,
      [[(1 : Int), 0], [0, 1], [1, 0]].get? j = [[(1 : Int), 0], [0, 1], [1, 0]].get? (i - 1) →
      m ≤ j + 1 :=
  group_duplicates_groups_sorted [[1, 0], [0, 1], [1, 0]] [1, 3] (by decide)

/-- C4: the three worked examples of §8 of the spec. -/
theorem group_duplicates_examples :
    group_duplicates [] = [] ∧
    group_duplicates [[1, 0], [1, 0], [0, 1]] = [[1, 2]] ∧
    group_duplicates [[1, 0], [0, 1], [1, 1]] = [] := by
  refine ⟨rfl, ?_, ?_⟩ <;> decide

/-- C6: the encoder is in-order concatenation of each element's textual
representation with no separator and no validation (`[0,2,1]` encodes to
`"021"`); on binary input the encoding has the input's length, and
`[0,1,0,1]` encodes to `"0101"`. -/
theorem state_to_binary_string_spec (S : List Int) (hS : ∀ x ∈ S, x = 0 ∨ x = 1) :
    (state_to_binary_string S).length = S.length ∧
    state_to_binary_string [0, 2, 1] = "021" ∧
    state_to_binary_string [0, 1, 0, 1] = "0101" := by
  refine ⟨?_, rfl, rfl⟩
  unfold state_to_binary_string
  show (String.join (S.map toString)).data.length = S.length
  rw [String.data_join, List.length_flatten, List.map_map, List.map_map]
  induction S with
  | nil => rfl
  | cons x S ih =>
      rw [List.map_cons, List.sum_cons, List.length_cons,
        ih (fun y hy => hS y (List.mem_cons_of_mem x hy))]
      have hx : ((List.length ∘ String.data) ∘ toString) x = 1 := by
        rcases hS x (List.mem_cons_self x S) with h | h <;> subst h <;> rfl
      rw [hx]
      omega

/-- Witness for C6 at `S = [0, 1, 0, 1]`. -/
theorem state_to_binary_string_spec_witness :
    (state_to_binary_string [0, 1, 0, 1]).length = ([0, 1, 0, 1] : List Int).length ∧
    state_to_binary_string [0, 2, 1] = "021" ∧
    state_to_binary_string [0, 1, 0, 1] = "0101" :=
  state_to_binary_string_spec [0, 1, 0, 1] (by decide)

/-! ### Lemmas about the summary-table loop -/

theorem buildStats_sound (inits : List (List Int)) :
    ∀ (results : List SimResult) (idx : Nat), idx + inits.length ≤ results.length →
      buildStats inits results idx =
        some ((inits.zip (results.drop idx)).map fun p => mkSummaryRow p.1 p.2) := by
  induction inits with
  | nil =>
      intro results idx _
      simp [buildStats]
  | cons init rest ih =>
      intro results idx h
      rw [List.length_cons] at h
      have hidx : idx < results.length := by omega
      have hres : results.get? idx = some (results.get ⟨idx, hidx⟩) := List.get?_eq_get hidx
      rw [buildStats, hres, ih results (idx + 1) (by omega),
        List.drop_eq_getElem_cons hidx, List.zip_cons_cons, List.map_cons]
      rfl

theorem buildStats_overrun (inits : List (List Int)) :
    ∀ (results : List SimResult) (idx : Nat), inits ≠ [] →
      results.length < idx + inits.length → buildStats inits results idx = none := by
  induction inits with
  | nil => intro _ _ h _; exact absurd rfl h
  | cons init rest ih =>
      intro results idx _ h
      rw [List.length_cons] at h
      by_cases hidx : idx < results.length
      · have hres : results.get? idx = some (results.get ⟨idx, hidx⟩) := List.get?_eq_get hidx
        have hrest : rest ≠ [] := by
          intro hr
          subst hr
          simp only [List.length_nil] at h
          omega
        rw [buildStats, hres, ih results (idx + 1) hrest (by omega)]
        rfl
      · have hres : results.get? idx = none := List.get?_eq_none.2 (by omega)
        rw [buildStats, hres]

/-- C2 counterexample: with `init_states` strictly longer than
`all_results` (a mismatch), the function does not truncate to the shorter
sequence — which would produce an empty table here — but hits an
`IndexError` on `all_results[0]`, modelled as `none`. -/
theorem create_summary_table_mismatch_raises :
    ([[(0 : Int)]].length ≠ ([] : List SimResult).length) ∧
    create_summary_table [[0]] [] { max_colwidth := 0, other_options := [] } = none :=
  ⟨by decide, rfl⟩

/-- C2 amended: when `all_results` is at least as long as `init_states`,
the call silently truncates to `init_states` under direct positional
pairing (one row per `init_states` index); but when `init_states` is
strictly longer, the call raises `IndexError` (modelled `none`) instead of
truncating. -/
theorem create_summary_table_truncates_or_raises (init_states : List (List Int))
    (all_results : List SimResult) (opts : PandasOptions) :
    (init_states.length ≤ all_results.length →
      ∃ rows, create_summary_table init_states all_results opts =
          some ({ opts with max_colwidth := 50 }, rows) ∧
        rows.length = init_states.length) ∧
    (all_results.length < init_states.length →
      create_summary_table init_states all_results opts = none) := by
  constructor
  · intro h
    refine ⟨(init_states.zip (all_results.drop 0)).map fun p => mkSummaryRow p.1 p.2,
      ?_, ?_⟩
    · unfold create_summary_table
      rw [buildStats_sound init_states all_results 0 (by omega)]
    · rw [List.length_map, List.length_zip, List.drop_zero]
      omega
  · intro h
    unfold create_summary_table
    rw [buildStats_overrun init_states all_results 0
      (List.length_pos.1 (by omega)) (by omega)]

/-- Witness for C2 at `init_states = []` with one extra result (truncation
branch), and at two initial states with one result (error branch). -/
theorem create_summary_table_truncates_or_raises_witness :
    (∃ rows,
      create_summary_table [] [{ frequency_vectors := [[1, 0]] }]
          { max_colwidth := 0, other_options := [] } =
        some ({ max_colwidth := 50, other_options := [] }, rows) ∧
      rows.length = 0) ∧
    create_summary_table [[0], [1]] [{ frequency_vectors := [] }]
        { max_colwidth := 0, other_options := [] } = none :=
  ⟨(create_summary_table_truncates_or_raises [] [{ frequency_vectors := [[1, 0]] }]
      { max_colwidth := 0, other_options := [] }).1 (by decide),
   (create_summary_table_truncates_or_raises [[0], [1]] [{ frequency_vectors := [] }]
      { max_colwidth := 0, other_options := [] }).2 (by decide)⟩

/-- C7: with matching lengths, the table has one row per initial state, in
input order; row `i` carries the encoding of `init_states[i]`, the groups
of `all_results[i]`'s frequency vectors, and that group list's length as
its count. -/
theorem create_summary_table_rows (init_states : List (List Int))
    (all_results : List SimResult) (opts : PandasOptions)
    (h : init_states.length = all_results.length) :
    ∃ rows, create_summary_table init_states all_results opts =
        some ({ opts with max_colwidth := 50 }, rows) ∧
      rows.length = init_states.length ∧
      ∀ i init res, init_states.get? i = some init → all_results.get? i = some res →
        rows.get? i = some
          { initial_state := state_to_binary_string init
            group_count := (group_duplicates res.frequency_vectors).length
            duplicate_groups := group_duplicates res.frequency_vectors } := by
  refine ⟨(init_states.zip (all_results.drop 0)).map fun p => mkSummaryRow p.1 p.2,
    ?_, ?_, ?_⟩
  · unfold create_summary_table
    rw [buildStats_sound init_states all_results 0 (by omega)]
  · rw [List.length_map, List.length_zip, List.drop_zero]
    omega
  · intro i init res hinit hres
    rw [List.drop_zero, List.get?_map,
      (List.get?_zip_eq_some init_states all_results (init, res) i).2 ⟨hinit, hres⟩]
    rfl

/-- Witness for C7 at one initial state with one duplicated pair. -/
theorem create_summary_table_rows_witness :
    ∃ rows,
      create_summary_table [[0, 1]] [{ frequency_vectors := [[1, 0], [1, 0]] }]
          { max_colwidth := 0, other_options := [] } =
        some ({ max_colwidth := 50, other_options := [] }, rows) ∧
      rows.length = 1 ∧
      ∀ i init res, ([[0, 1]] : List (List Int)).get? i = some init →
        ([{ frequency_vectors := [[1, 0], [1, 0]] }] : List SimResult).get? i = some res →
        rows.get? i = some
          { initial_state := state_to_binary_string init
            group_count := (group_duplicates res.frequency_vectors).length
            duplicate_groups := group_duplicates res.frequency_vectors } :=
  create_summary_table_rows [[0, 1]] [{ frequency_vectors := [[1, 0], [1, 0]] }]
    { max_colwidth := 0, other_options := [] } rfl

/-- C8 counterexample: the call does mutate process-wide state — it sets
the pandas option `max_colwidth` to 50, so a pre-state with
`max_colwidth = 30` is not preserved across the call. -/
theorem create_summary_table_mutates_global_options :
    create_summary_table [] [] { max_colwidth := 30, other_options := [] } =
      some ({ max_colwidth := 50, other_options := [] }, []) ∧
    ({ max_colwidth := 50, other_options := [] } : PandasOptions) ≠
      { max_colwidth := 30, other_options := [] } :=
  ⟨rfl, by decide⟩

/-- C8 amended: besides producing the table, the only side effect of
`create_summary_table` is setting the process-wide pandas display option
`max_colwidth` to 50; every other process-wide option is preserved, and
(the embedding being pure) the input collections are returned unchanged to
the caller. -/
theorem create_summary_table_only_sets_max_colwidth (init_states : List (List Int))
    (all_results : List SimResult) (opts st : PandasOptions) (rows : List SummaryRow)
    (h : create_summary_table init_states all_results opts = some (st, rows)) :
    st.max_colwidth = 50 ∧ st.other_options = opts.other_options := by
  unfold create_summary_table at h
  rcases hb : buildStats init_states all_results 0 with _ | stats
  · rw [hb] at h
    exact Option.noConfusion h
  · rw [hb] at h
    have hp := Option.some.inj h
    have hst : st = { opts with max_colwidth := 50 } := (congrArg Prod.fst hp).symm
    rw [hst]
    exact ⟨rfl, rfl⟩

/-- Witness for C8 at a concrete pre-state carrying another option. -/
theorem create_summary_table_only_sets_max_colwidth_witness :
    ({ max_colwidth := 50, other_options := [("display.width", 80)] } :
        PandasOptions).max_colwidth = 50 ∧
    ({ max_colwidth := 50, other_options := [("display.width", 80)] } :
        PandasOptions).other_options =
      ({ max_colwidth := 30, other_options := [("display.width", 80)] } :
        PandasOptions).other_options :=
  create_summary_table_only_sets_max_colwidth [] []
    { max_colwidth := 30, other_options := [("display.width", 80)] }
    { max_colwidth := 50, other_options := [("display.width", 80)] } [] rfl

end CellularAutomata
